import Mathlib

/-!
Shallow embedding of `database.py` (class `NEODatabase`) from the
Near-Earth-Objects repository.

Python mutates `NearEarthObject` and `CloseApproach` objects in place and
stores references to them.  We model the two input collections as lists and
object references as indices into those lists; in-place mutation becomes
`List.set` on the backing list, threaded explicitly through the constructor.
-/

/-- Embedding of Python `str.lower()` (ASCII case folding; every claim only
depends on both sides of each comparison being folded by the same function). -/
def strLower (s : String) : String := ⟨s.data.map Char.toLower⟩

/-- Embedding of `models.NearEarthObject` as consumed by `database.py`: `designation`, a
`name` that may be the null value, payload fields `diameter` and `hazardous`
that the database never reads (modelled with decidable-equality stand-in
types), and the `approaches` list that the constructor fills with references
to (indices of) this object's close approaches. -/
structure NearEarthObject where
  designation : String
  name : Option String
  diameter : Int
  hazardous : Bool
  approaches : List Nat
deriving DecidableEq

/-- Embedding of `models.CloseApproach` as consumed by `database.py`: the foreign-key
string `_designation`, payload fields `time`, `distance` and `velocity` that
the database never reads, and the back-reference `neo` (index of a
`NearEarthObject`; `none` models Python `None`). -/
structure CloseApproach where
  _designation : String
  time : String
  distance : Int
  velocity : Int
  neo : Option Nat
deriving DecidableEq

/-- Python `dict` with string keys and object-reference values, as an
insertion-ordered association list; `d.update({k: v})` overwrites the value
of an existing key in place, otherwise appends a fresh binding. -/
def dictUpdate (d : List (String × Nat)) (k : String) (v : Nat) :
    List (String × Nat) :=
  if d.any (fun p => p.1 == k) then
    d.map (fun p => if p.1 == k then (k, v) else p)
  else
    d ++ [(k, v)]

/-- Python `d.get(k, None)`. -/
def dictGet (d : List (String × Nat)) (k : String) : Option Nat :=
  (d.find? (fun p => p.1 == k)).map (fun p => p.2)

/-- The filter predicate of lines 35-39 applied to the approach at index `j`:
`approach._designation.lower() == neo.designation.lower()`. -/
def matchKeyB (apprs : List CloseApproach) (o : NearEarthObject) (j : Nat) :
    Bool :=
  match apprs[j]? with
  | some a => strLower a._designation == strLower o.designation
  | none => false

/-- Embedding of `list(filter(lambda approach: ..., approaches))` for one NEO: the indices
of the matching approaches, in the collection's original order. -/
def matchedFor (apprs : List CloseApproach) (o : NearEarthObject) : List Nat :=
  (List.range apprs.length).filter (matchKeyB apprs o)

/-- Embedding of `approach.neo = neo` (line 43): in-place mutation of the approach at
index `j`, setting its back-reference to the NEO at index `i`. -/
def setNeoAt (apprs : List CloseApproach) (j i : Nat) : List CloseApproach :=
  match apprs[j]? with
  | some a => apprs.set j { a with neo := some i }
  | none => apprs

/-- The inner loop of lines 42-43: sequentially set the back-reference of
every approach listed in `ms` to the NEO at index `i`. -/
def setNeoFold (apprs : List CloseApproach) (ms : List Nat) (i : Nat) :
    List CloseApproach :=
  ms.foldl (fun l j => setNeoAt l j i) apprs

/-- One iteration of the linking loop (lines 33-43), processing the NEO at
index `i`: compute the matching sublist of the (current) approaches
collection, store it as the NEO's `approaches`, then set the back-reference
of each matched approach. -/
def linkStep (st : List NearEarthObject × List CloseApproach) (i : Nat) :
    List NearEarthObject × List CloseApproach :=
  match st.1[i]? with
  | none => st
  | some neo =>
    let matched := (List.range st.2.length).filter (matchKeyB st.2 neo)
    (st.1.set i { neo with approaches := matched }, setNeoFold st.2 matched i)

/-- The whole linking loop `for neo in neos: ...` (lines 33-43). -/
def linkLoop (neos : List NearEarthObject) (apprs : List CloseApproach) :
    List NearEarthObject × List CloseApproach :=
  (List.range neos.length).foldl linkStep (neos, apprs)

/-- One iteration of the index-building loop (lines 48-51) for the row at
index `i`: always update `neos_by_designation`; update `neos_by_name` only
when `row.name` is truthy (neither the null value nor the empty string). -/
def indexStep (ns : List NearEarthObject)
    (st : List (String × Nat) × List (String × Nat)) (i : Nat) :
    List (String × Nat) × List (String × Nat) :=
  match ns[i]? with
  | none => st
  | some row =>
    let byDes := dictUpdate st.1 (strLower row.designation) i
    let byName :=
      match row.name with
      | some nm => if nm == "" then st.2 else dictUpdate st.2 (strLower nm) i
      | none => st.2
    (byDes, byName)

/-- The index-building loop of lines 46-51, over the (already linked) rows. -/
def buildIndexes (ns : List NearEarthObject) :
    List (String × Nat) × List (String × Nat) :=
  (List.range ns.length).foldl (indexStep ns) ([], [])

/-- The state held by a constructed `NEODatabase` (`self._neos` and
`self.neos` alias the same linked collection; we store it once). -/
structure NEODatabase where
  _neos : List NearEarthObject
  _approaches : List CloseApproach
  neos_by_designation : List (String × Nat)
  neos_by_name : List (String × Nat)
deriving DecidableEq

/-- Embedding of `NEODatabase.__init__` (lines 12-51): run the linking loop, then build
both lookup indexes from the linked rows. -/
def NEODatabase.init (neos : List NearEarthObject)
    (approaches : List CloseApproach) : NEODatabase :=
  let st := linkLoop neos approaches
  let idx := buildIndexes st.1
  { _neos := st.1, _approaches := st.2,
    neos_by_designation := idx.1, neos_by_name := idx.2 }

/-- Embedding of `get_neo_by_designation` (lines 53-66): lowercase the key and look it up,
returning a reference to the NEO (`some` index) or the `None` sentinel. -/
def NEODatabase.get_neo_by_designation (db : NEODatabase)
    (designation : String) : Option Nat :=
  dictGet db.neos_by_designation (strLower designation)

/-- Embedding of `get_neo_by_name` (lines 68-82) called with a string argument. -/
def NEODatabase.get_neo_by_name (db : NEODatabase) (name : String) :
    Option Nat :=
  dictGet db.neos_by_name (strLower name)

/-- The Python error that the dynamic call `get_neo_by_name(name)` raises
when `name` is the null value. -/
inductive PyError where
  | attributeError
deriving DecidableEq

/-- Embedding of `get_neo_by_name` as Python executes it when the argument may be `None`:
line 82 evaluates `name.lower()`, which raises `AttributeError` on `None`
(the null value has no `.lower` method); otherwise the lookup proceeds. -/
def NEODatabase.get_neo_by_name_dyn (db : NEODatabase) (name : Option String) :
    Except PyError (Option Nat) :=
  match name with
  | none => Except.error PyError.attributeError
  | some s => Except.ok (db.get_neo_by_name s)

/-- Embedding of `get_neo_by_designation` as Python executes it when the
argument may be `None`: line 66 evaluates `designation.lower()`, which raises
`AttributeError` on `None`; otherwise the lookup proceeds and returns
normally. -/
def NEODatabase.get_neo_by_designation_dyn (db : NEODatabase)
    (designation : Option String) : Except PyError (Option Nat) :=
  match designation with
  | none => Except.error PyError.attributeError
  | some s => Except.ok (db.get_neo_by_designation s)

/-- A Python sequence as passed for `filters`: a list or a tuple. -/
inductive PySeq (φ : Type) where
  | list : List φ → PySeq φ
  | tuple : List φ → PySeq φ
deriving DecidableEq

/-- The elements of a Python list or tuple, in order. -/
def PySeq.elems {φ : Type} : PySeq φ → List φ
  | .list l => l
  | .tuple l => l

/-- Python `==` between the list `match_fil` and the collection `filters`
(line 103): a list never equals a tuple; two lists compare elementwise.
Predicates are Python function objects and compare by identity, so `φ` stands
for predicate object identity and `DecidableEq φ` for Python `is`;
`match_fil` holds the very objects taken from `filters`. -/
def pyEqListSeq {φ : Type} [DecidableEq φ] (xs : List φ) : PySeq φ → Bool
  | .list ys => decide (xs = ys)
  | .tuple _ => false

/-- Embedding of `query` (lines 84-104), the generator drained into the list of all
yielded approaches: for each approach of `self._approaches` in order, build
`match_fil` (the sublist of `filters` whose predicates return true on it, in
order) and yield the approach exactly when `match_fil == filters`.  `evalF`
gives each predicate object's behaviour. -/
def NEODatabase.query {φ : Type} [DecidableEq φ]
    (evalF : φ → CloseApproach → Bool) (db : NEODatabase)
    (filters : PySeq φ) : List CloseApproach :=
  db._approaches.filter (fun approach =>
    pyEqListSeq (filters.elems.filter (fun fil => evalF fil approach)) filters)

/-- The default argument `filters=()` of line 84: the empty tuple. -/
def emptyFilters : PySeq Unit := PySeq.tuple []

/-- A call `query()` using the default argument (the predicate evaluator is
irrelevant: there are no predicate objects). -/
def NEODatabase.queryDefault (db : NEODatabase) : List CloseApproach :=
  db.query (fun _ _ => true) emptyFilters

/-- The state of one generator returned by `query`: the not-yet-scanned tail
of the backing collection plus the supplied filter collection. -/
structure QueryGen (φ : Type) where
  pending : List CloseApproach
  filters : PySeq φ
deriving DecidableEq

/-- Calling `query(filters)` returns a fresh generator positioned at the
start of `self._approaches`; nothing in the database is read ahead of time or
mutated. -/
def NEODatabase.queryGen {φ : Type} (db : NEODatabase) (filters : PySeq φ) :
    QueryGen φ :=
  { pending := db._approaches, filters := filters }

/-- Drain helper: run the loop of lines 98-104 over the pending tail. -/
def drainFrom {φ : Type} [DecidableEq φ] (evalF : φ → CloseApproach → Bool)
    (filters : PySeq φ) : List CloseApproach → List CloseApproach
  | [] => []
  | a :: rest =>
    if pyEqListSeq (filters.elems.filter (fun fil => evalF fil a)) filters then
      a :: drainFrom evalF filters rest
    else
      drainFrom evalF filters rest

/-- Run a generator to exhaustion, collecting everything it yields. -/
def QueryGen.drain {φ : Type} [DecidableEq φ]
    (evalF : φ → CloseApproach → Bool) (g : QueryGen φ) : List CloseApproach :=
  drainFrom evalF g.filters g.pending

/-! ### Characterization of the linking loop -/

/-- Python `x if x is not None else y` on object references. -/
def orO (a b : Option Nat) : Option Nat :=
  match a with
  | some x => some x
  | none => b

/-- Whether the NEO at index `i` matches the approach at index `j`, computed
over the original input collections. -/
def neoMatchB (neos : List NearEarthObject) (apprs : List CloseApproach)
    (j i : Nat) : Bool :=
  match neos[i]? with
  | some o => matchKeyB apprs o j
  | none => false

/-- The indices, in loop order, of NEOs among the first `k` that match the
approach at index `j` — i.e. the iterations that write its `neo` field. -/
def writersUpTo (neos : List NearEarthObject) (apprs : List CloseApproach)
    (k j : Nat) : List Nat :=
  (List.range k).filter (neoMatchB neos apprs j)

/-- The linking loop stopped after its first `k` iterations. -/
def linkFold (neos : List NearEarthObject) (apprs : List CloseApproach)
    (k : Nat) : List NearEarthObject × List CloseApproach :=
  (List.range k).foldl linkStep (neos, apprs)
/-! ### Characterization of the index build -/

/-- Whether the row at index `i` writes binding `i` under key `s` into
`neos_by_designation` (it writes its lowercased designation). -/
def desKeyB (ns : List NearEarthObject) (s : String) (i : Nat) : Bool :=
  match ns[i]? with
  | some o => strLower o.designation == s
  | none => false

/-- Whether the row at index `i` writes binding `i` under key `s` into
`neos_by_name` (only truthy names are indexed, under their lowercasing). -/
def nameKeyB (ns : List NearEarthObject) (s : String) (i : Nat) : Bool :=
  match ns[i]? with
  | some o =>
    match o.name with
    | some nm => !(nm == "") && (strLower nm == s)
    | none => false
  | none => false

/-- The index-building loop stopped after its first `k` iterations. -/
def indexFold (ns : List NearEarthObject) (k : Nat) :
    List (String × Nat) × List (String × Nat) :=
  (List.range k).foldl (indexStep ns) ([], [])

/-- The key under which a row would be indexed by name: its lowercased name
when the name is truthy (neither the null value nor empty), else nothing. -/
def truthyNameKey (o : NearEarthObject) : Option String :=
  match o.name with
  | some nm => if nm == "" then none else some (strLower nm)
  | none => none

/-- The fields of a NEO that the constructor never writes. -/
def neoPayload (o : NearEarthObject) : String × Option String × Int × Bool :=
  (o.designation, o.name, o.diameter, o.hazardous)

/-- The fields of a close approach that the constructor never writes. -/
def apprPayload (a : CloseApproach) : String × String × Int × Int :=
  (a._designation, a.time, a.distance, a.velocity)

/-- Spec section 8's concrete scenario, object `433 Eros`. -/
def sampleNeo : NearEarthObject :=
  { designation := "433", name := some "Eros", diameter := 16,
    hazardous := false, approaches := [] }

/-- Spec section 8's first event: its key matches `433`. -/
def sampleHit : CloseApproach :=
  { _designation := "433", time := "2020-01-01", distance := 15,
    velocity := 52, neo := none }

/-- Spec section 8's second event: an orphan, key `999` matches no object. -/
def sampleOrphan : CloseApproach :=
  { _designation := "999", time := "2020-02-01", distance := 30,
    velocity := 31, neo := none }

/-- The database of spec section 8's concrete scenario. -/
def sampleDB : NEODatabase := NEODatabase.init [sampleNeo] [sampleHit, sampleOrphan]

/-- A pair of objects with case-insensitively equal designations. -/
def dupFirst : NearEarthObject :=
  { designation := "2010 XY", name := some "Alpha", diameter := 1,
    hazardous := false, approaches := [] }

/-- The later duplicate of [dupFirst] (distinct case, same key). -/
def dupSecond : NearEarthObject :=
  { designation := "2010 xy", name := some "Beta", diameter := 2,
    hazardous := true, approaches := [] }

/-- An event whose key matches both duplicate objects. -/
def dupHit : CloseApproach :=
  { _designation := "2010 Xy", time := "t", distance := 1, velocity := 1,
    neo := none }

/-! ### Dictionary lemmas -/

theorem dictGet_cons (p : String × Nat) (d : List (String × Nat)) (s : String) :
    dictGet (p :: d) s = if p.1 = s then some p.2 else dictGet d s := by
  by_cases h : p.1 = s <;> simp [dictGet, List.find?_cons, h]

theorem dictGet_map_ne (d : List (String × Nat)) (k : String) (v : Nat)
    (s : String) (hs : s ≠ k) :
    dictGet (d.map (fun p => if p.1 == k then (k, v) else p)) s = dictGet d s := by
  induction d with
  | nil => rfl
  | cons p d ih =>
    by_cases hp : p.1 = k
    · have hks : ¬ k = s := fun h => hs h.symm
      have hps : ¬ p.1 = s := by rw [hp]; exact hks
      simp only [List.map_cons]
      rw [show (if p.1 == k then (k, v) else p) = (k, v) by simp [hp]]
      rw [dictGet_cons, dictGet_cons, if_neg hks, if_neg hps, ih]
    · simp only [List.map_cons]
      rw [show (if p.1 == k then (k, v) else p) = p by simp [hp]]
      rw [dictGet_cons, dictGet_cons, ih]

theorem dictGet_map_eq (d : List (String × Nat)) (k : String) (v : Nat)
    (hany : d.any (fun p => p.1 == k) = true) :
    dictGet (d.map (fun p => if p.1 == k then (k, v) else p)) k = some v := by
  induction d with
  | nil => simp at hany
  | cons p d ih =>
    by_cases hp : p.1 = k
    · simp [dictGet_cons, hp]
    · simp only [List.map_cons]
      rw [show (if p.1 == k then (k, v) else p) = p by simp [hp]]
      rw [dictGet_cons, if_neg hp]
      exact ih (by simpa [hp] using hany)

theorem dictGet_append_single (d : List (String × Nat)) (k : String) (v : Nat)
    (s : String) :
    dictGet (d ++ [(k, v)]) s =
      match dictGet d s with
      | some w => some w
      | none => if k = s then some v else none := by
  induction d with
  | nil => simp [dictGet_cons, dictGet]
  | cons p d ih =>
    by_cases hp : p.1 = s <;> simp [dictGet_cons, hp, ih]

theorem dictGet_eq_none_of_not_any (d : List (String × Nat)) (k : String)
    (hany : d.any (fun p => p.1 == k) = false) : dictGet d k = none := by
  induction d with
  | nil => rfl
  | cons p d ih =>
    rw [List.any_cons, Bool.or_eq_false_iff] at hany
    rw [dictGet_cons, if_neg (by simpa using hany.1)]
    exact ih hany.2

theorem dictGet_update (d : List (String × Nat)) (k : String) (v : Nat)
    (s : String) :
    dictGet (dictUpdate d k v) s = if k = s then some v else dictGet d s := by
  unfold dictUpdate
  by_cases hany : d.any (fun p => p.1 == k)
  · rw [if_pos hany]
    by_cases hs : k = s
    · subst hs
      rw [if_pos rfl, dictGet_map_eq d k v hany]
    · rw [if_neg hs, dictGet_map_ne d k v s (fun h => hs h.symm)]
  · rw [if_neg hany]
    rw [dictGet_append_single]
    by_cases hs : k = s
    · subst hs
      rw [dictGet_eq_none_of_not_any d k
        (by simp only [Bool.not_eq_true] at hany; exact hany)]
    · cases hd : dictGet d s <;> simp [hs]

/-! ### Linking-loop lemmas -/

theorem getElem?_some_lt {α : Type} (l : List α) (i : Nat) (a : α)
    (h : l[i]? = some a) : i < l.length := by
  by_contra hc
  rw [List.getElem?_eq_none_iff.mpr (Nat.le_of_not_lt hc)] at h
  exact Option.noConfusion h

theorem setNeoAt_length (apprs : List CloseApproach) (j i : Nat) :
    (setNeoAt apprs j i).length = apprs.length := by
  unfold setNeoAt
  cases h : apprs[j]? <;> simp

theorem setNeoAt_getElem? (apprs : List CloseApproach) (j i q : Nat) :
    (setNeoAt apprs j i)[q]? =
      if q = j then (apprs[j]?).map (fun a => { a with neo := some i })
      else apprs[q]? := by
  unfold setNeoAt
  cases h : apprs[j]? with
  | none =>
    by_cases hq : q = j
    · subst hq; simp [h]
    · simp [hq]
  | some a =>
    have hlt : j < apprs.length := getElem?_some_lt apprs j a h
    rw [List.getElem?_set]
    by_cases hq : q = j
    · subst hq; simp [hlt, h]
    · rw [if_neg (fun hh => hq hh.symm), if_neg hq]

theorem setNeoFold_length (ms : List Nat) (apprs : List CloseApproach)
    (i : Nat) : (setNeoFold apprs ms i).length = apprs.length := by
  induction ms generalizing apprs with
  | nil => rfl
  | cons m ms ih =>
    rw [setNeoFold, List.foldl_cons]
    rw [show List.foldl (fun l j => setNeoAt l j i) (setNeoAt apprs m i) ms =
      setNeoFold (setNeoAt apprs m i) ms i from rfl]
    rw [ih (setNeoAt apprs m i), setNeoAt_length]

theorem setNeoFold_getElem? (ms : List Nat) (apprs : List CloseApproach)
    (i j : Nat) :
    (setNeoFold apprs ms i)[j]? =
      if j ∈ ms then (apprs[j]?).map (fun a => { a with neo := some i })
      else apprs[j]? := by
  induction ms generalizing apprs with
  | nil => simp [setNeoFold]
  | cons m ms ih =>
    rw [setNeoFold, List.foldl_cons]
    rw [show List.foldl (fun l j => setNeoAt l j i) (setNeoAt apprs m i) ms =
      setNeoFold (setNeoAt apprs m i) ms i from rfl]
    rw [ih (setNeoAt apprs m i), setNeoAt_getElem?]
    by_cases hm : j ∈ ms
    · rw [if_pos hm, if_pos (List.mem_cons.mpr (Or.inr hm))]
      by_cases hjm : j = m
      · subst hjm; cases apprs[j]? <;> simp
      · rw [if_neg hjm]
    · by_cases hjm : j = m
      · subst hjm
        rw [if_neg hm, if_pos rfl, if_pos (List.mem_cons.mpr (Or.inl rfl))]
      · rw [if_neg hm, if_neg hjm,
          if_neg (fun hc => (List.mem_cons.mp hc).elim hjm hm)]

theorem matchKeyB_congr (l1 l2 : List CloseApproach) (o : NearEarthObject)
    (j : Nat)
    (h : (l1[j]?).map CloseApproach._designation =
         (l2[j]?).map CloseApproach._designation) :
    matchKeyB l1 o j = matchKeyB l2 o j := by
  unfold matchKeyB
  cases h1 : l1[j]? <;> cases h2 : l2[j]? <;> rw [h1, h2] at h <;> simp at h ⊢
  rw [h]

theorem mem_matchedFor (apprs : List CloseApproach) (o : NearEarthObject)
    (j : Nat) : j ∈ matchedFor apprs o ↔ matchKeyB apprs o j = true := by
  unfold matchedFor
  rw [List.mem_filter, List.mem_range]
  constructor
  · rintro ⟨_, h⟩; exact h
  · intro h
    refine ⟨?_, h⟩
    cases hj : apprs[j]? with
    | none => unfold matchKeyB at h; rw [hj] at h; simp at h
    | some a => exact getElem?_some_lt apprs j a hj

/-! ### Last-writer lemmas over `List.range` -/

theorem filter_range_eq_nil (p : Nat → Bool) (n : Nat)
    (h : ∀ x, x < n → p x = false) : (List.range n).filter p = [] := by
  rw [List.filter_eq_nil_iff]
  intro a ha
  rw [List.mem_range] at ha
  simp [h a ha]

theorem getLast?_filter_range (p : Nat → Bool) (n i : Nat) (hi : i < n)
    (hp : p i = true) (hmax : ∀ x, p x = true → x ≤ i) :
    ((List.range n).filter p).getLast? = some i := by
  have hn : n = (i + 1) + (n - (i + 1)) := by omega
  rw [hn, List.range_add, List.filter_append, List.range_succ,
    List.filter_append]
  have h2 : ((List.range (n - (i + 1))).map ((i + 1) + ·)).filter p = [] := by
    rw [List.filter_eq_nil_iff]
    intro a ha
    rw [List.mem_map] at ha
    obtain ⟨x, _, rfl⟩ := ha
    intro hpa
    have := hmax _ (by simpa using hpa)
    omega
  rw [h2, List.append_nil,
    show List.filter p [i] = [i] from by simp [hp]]
  exact List.getLast?_concat _

theorem linkLoop_eq_linkFold (neos : List NearEarthObject)
    (apprs : List CloseApproach) :
    linkLoop neos apprs = linkFold neos apprs neos.length := rfl

theorem linkFold_char (neos : List NearEarthObject)
    (apprs : List CloseApproach) (k : Nat) :
    (linkFold neos apprs k).1.length = neos.length ∧
    (linkFold neos apprs k).2.length = apprs.length ∧
    (∀ i : Nat, (linkFold neos apprs k).1[i]? =
      if i < k then
        (neos[i]?).map (fun o => { o with approaches := matchedFor apprs o })
      else neos[i]?) ∧
    (∀ j : Nat, (linkFold neos apprs k).2[j]? =
      (apprs[j]?).map (fun a =>
        { a with neo := orO ((writersUpTo neos apprs k j).getLast?) a.neo })) := by
  induction k with
  | zero =>
    have h0 : linkFold neos apprs 0 = (neos, apprs) := by
      unfold linkFold
      rw [List.range_zero, List.foldl_nil]
    rw [h0]
    refine ⟨rfl, rfl, fun i => by rw [if_neg (Nat.not_lt_zero i)], fun j => ?_⟩
    rw [show writersUpTo neos apprs 0 j = [] from by
      unfold writersUpTo; rw [List.range_zero, List.filter_nil]]
    cases apprs[j]? with
    | none => rfl
    | some a => rfl
  | succ k ih =>
    obtain ⟨ih1, ih2, ih3, ih4⟩ := ih
    have hfold : linkFold neos apprs (k + 1) =
        linkStep (linkFold neos apprs k) k := by
      unfold linkFold
      rw [List.range_succ, List.foldl_append, List.foldl_cons, List.foldl_nil]
    have hsk : (linkFold neos apprs k).1[k]? = neos[k]? := by
      rw [ih3 k, if_neg (Nat.lt_irrefl k)]
    cases hk : neos[k]? with
    | none =>
      have hstep : linkFold neos apprs (k + 1) = linkFold neos apprs k := by
        rw [hfold]
        unfold linkStep
        rw [hsk, hk]
      have hw : ∀ j, writersUpTo neos apprs (k + 1) j =
          writersUpTo neos apprs k j := by
        intro j
        unfold writersUpTo
        rw [List.range_succ, List.filter_append]
        rw [show List.filter (neoMatchB neos apprs j) [k] = [] from by
          simp [neoMatchB, hk]]
        rw [List.append_nil]
      refine ⟨by rw [hstep]; exact ih1, by rw [hstep]; exact ih2,
        fun i => ?_, fun j => by rw [hstep, ih4 j, hw j]⟩
      rw [hstep, ih3 i]
      rcases Nat.lt_trichotomy i k with hik | hik | hik
      · rw [if_pos hik, if_pos (Nat.lt_succ_of_lt hik)]
      · subst hik
        rw [if_neg (Nat.lt_irrefl i), if_pos (Nat.lt_succ_self i), hk]
        rfl
      · rw [if_neg (by omega), if_neg (by omega)]
    | some o =>
      have hklt : k < neos.length := getElem?_some_lt neos k o hk
      have hdes : ∀ j : Nat, ((linkFold neos apprs k).2[j]?).map
          CloseApproach._designation = (apprs[j]?).map
          CloseApproach._designation := by
        intro j
        rw [ih4 j]
        cases apprs[j]? <;> simp
      have hmk : ∀ j, matchKeyB (linkFold neos apprs k).2 o j =
          matchKeyB apprs o j := fun j => matchKeyB_congr _ _ o j (hdes j)
      have hmatched : (List.range (linkFold neos apprs k).2.length).filter
          (matchKeyB (linkFold neos apprs k).2 o) = matchedFor apprs o := by
        rw [ih2]
        unfold matchedFor
        exact List.filter_congr (fun j _ => hmk j)
      have hstep : linkFold neos apprs (k + 1) =
          ((linkFold neos apprs k).1.set k
             { o with approaches := matchedFor apprs o },
           setNeoFold (linkFold neos apprs k).2 (matchedFor apprs o) k) := by
        rw [hfold]
        unfold linkStep
        rw [hsk, hk]
        simp only [hmatched]
      have hstep1 : (linkFold neos apprs (k + 1)).1 =
          (linkFold neos apprs k).1.set k
            { o with approaches := matchedFor apprs o } := by
        rw [hstep]
      have hstep2 : (linkFold neos apprs (k + 1)).2 =
          setNeoFold (linkFold neos apprs k).2 (matchedFor apprs o) k := by
        rw [hstep]
      have hwsucc : ∀ j, writersUpTo neos apprs (k + 1) j =
          if matchKeyB apprs o j then writersUpTo neos apprs k j ++ [k]
          else writersUpTo neos apprs k j := by
        intro j
        unfold writersUpTo
        rw [List.range_succ, List.filter_append]
        by_cases hm : matchKeyB apprs o j
        · rw [if_pos hm,
            show List.filter (neoMatchB neos apprs j) [k] = [k] from by
              simp [neoMatchB, hk, hm]]
        · rw [if_neg hm,
            show List.filter (neoMatchB neos apprs j) [k] = [] from by
              simp only [List.filter_cons, List.filter_nil]
              rw [show neoMatchB neos apprs j k = false from by
                unfold neoMatchB
                rw [hk]
                simpa using hm]
              rfl]
          rw [List.append_nil]
      refine ⟨?_, ?_, fun i => ?_, fun j => ?_⟩
      · rw [hstep1, List.length_set]
        exact ih1
      · rw [hstep2, setNeoFold_length, ih2]
      · rw [hstep1, List.getElem?_set]
        by_cases hik : k = i
        · subst hik
          rw [if_pos rfl, if_pos (by rw [ih1]; exact hklt),
            if_pos (Nat.lt_succ_self k), hk]
          rfl
        · rw [if_neg hik, ih3 i]
          rcases Nat.lt_trichotomy i k with h2 | h2 | h2
          · rw [if_pos h2, if_pos (Nat.lt_succ_of_lt h2)]
          · exact absurd h2.symm hik
          · rw [if_neg (by omega), if_neg (by omega)]
      · rw [hstep2, setNeoFold_getElem?, hwsucc j]
        by_cases hm : matchKeyB apprs o j
        · rw [if_pos ((mem_matchedFor apprs o j).mpr hm), if_pos hm, ih4 j]
          cases apprs[j]? with
          | none => rfl
          | some a =>
            simp only [List.getLast?_concat]
            rfl
        · rw [if_neg (fun hc => hm ((mem_matchedFor apprs o j).mp hc)),
            if_neg hm, ih4 j]

theorem buildIndexes_eq_indexFold (ns : List NearEarthObject) :
    buildIndexes ns = indexFold ns ns.length := rfl

theorem indexFold_char (ns : List NearEarthObject) (k : Nat) :
    (∀ s, dictGet (indexFold ns k).1 s =
      ((List.range k).filter (desKeyB ns s)).getLast?) ∧
    (∀ s, dictGet (indexFold ns k).2 s =
      ((List.range k).filter (nameKeyB ns s)).getLast?) := by
  induction k with
  | zero =>
    have h0 : indexFold ns 0 = ([], []) := by
      unfold indexFold
      rw [List.range_zero, List.foldl_nil]
    constructor <;> intro s <;>
      rw [h0, List.range_zero, List.filter_nil] <;> rfl
  | succ k ih =>
    obtain ⟨ih1, ih2⟩ := ih
    have hfold : indexFold ns (k + 1) = indexStep ns (indexFold ns k) k := by
      unfold indexFold
      rw [List.range_succ, List.foldl_append, List.foldl_cons, List.foldl_nil]
    cases hk : ns[k]? with
    | none =>
      have hstep : indexFold ns (k + 1) = indexFold ns k := by
        rw [hfold]
        unfold indexStep
        rw [hk]
      refine ⟨fun s => ?_, fun s => ?_⟩
      · rw [hstep, ih1 s, List.range_succ, List.filter_append,
          show List.filter (desKeyB ns s) [k] = [] from by simp [desKeyB, hk],
          List.append_nil]
      · rw [hstep, ih2 s, List.range_succ, List.filter_append,
          show List.filter (nameKeyB ns s) [k] = [] from by
            simp [nameKeyB, hk],
          List.append_nil]
    | some row =>
      have hstep1 : (indexFold ns (k + 1)).1 =
          dictUpdate (indexFold ns k).1 (strLower row.designation) k := by
        rw [hfold]
        unfold indexStep
        rw [hk]
      have hstep2 : (indexFold ns (k + 1)).2 =
          (match row.name with
           | some nm =>
             if nm == "" then (indexFold ns k).2
             else dictUpdate (indexFold ns k).2 (strLower nm) k
           | none => (indexFold ns k).2) := by
        rw [hfold]
        unfold indexStep
        rw [hk]
      refine ⟨fun s => ?_, fun s => ?_⟩
      · rw [hstep1, dictGet_update, ih1 s, List.range_succ,
          List.filter_append]
        by_cases hs : strLower row.designation = s
        · rw [if_pos hs,
            show List.filter (desKeyB ns s) [k] = [k] from by
              simp [desKeyB, hk, hs],
            List.getLast?_concat]
        · rw [if_neg hs,
            show List.filter (desKeyB ns s) [k] = [] from by
              simp [desKeyB, hk]
              simpa using hs,
            List.append_nil]
      · cases hnm : row.name with
        | none =>
          have hst : (indexFold ns (k + 1)).2 = (indexFold ns k).2 := by
            rw [hstep2, hnm]
          rw [hst, ih2 s, List.range_succ, List.filter_append,
            show List.filter (nameKeyB ns s) [k] = [] from by
              simp [nameKeyB, hk, hnm],
            List.append_nil]
        | some nm =>
          by_cases hemp : nm = ""
          · have hst : (indexFold ns (k + 1)).2 = (indexFold ns k).2 := by
              rw [hstep2, hnm]
              show (if (nm == "") = true then (indexFold ns k).2
                else dictUpdate (indexFold ns k).2 (strLower nm) k) = _
              rw [if_pos (by simp [hemp])]
            rw [hst, ih2 s, List.range_succ, List.filter_append,
              show List.filter (nameKeyB ns s) [k] = [] from by
                simp [nameKeyB, hk, hnm, hemp],
              List.append_nil]
          · have hst : (indexFold ns (k + 1)).2 =
                dictUpdate (indexFold ns k).2 (strLower nm) k := by
              rw [hstep2, hnm]
              show (if (nm == "") = true then (indexFold ns k).2
                else dictUpdate (indexFold ns k).2 (strLower nm) k) = _
              rw [if_neg (by simpa using hemp)]
            rw [hst, dictGet_update, ih2 s, List.range_succ,
              List.filter_append]
            by_cases hs : strLower nm = s
            · rw [if_pos hs,
                show List.filter (nameKeyB ns s) [k] = [k] from by
                  simp [nameKeyB, hk, hnm, hemp, hs],
                List.getLast?_concat]
            · rw [if_neg hs,
                show List.filter (nameKeyB ns s) [k] = [] from by
                  simp [nameKeyB, hk, hnm, hemp]
                  simpa using hs,
                List.append_nil]

/-! ### Database-level characterization -/

theorem linkLoop_fst_getElem? (neos : List NearEarthObject)
    (apprs : List CloseApproach) (i : Nat) :
    (linkLoop neos apprs).1[i]? =
      (neos[i]?).map (fun o => { o with approaches := matchedFor apprs o }) := by
  rw [linkLoop_eq_linkFold]
  obtain ⟨h1, h2, h3, h4⟩ := linkFold_char neos apprs neos.length
  rw [h3 i]
  by_cases hi : i < neos.length
  · rw [if_pos hi]
  · rw [if_neg hi, List.getElem?_eq_none_iff.mpr (Nat.le_of_not_lt hi)]
    rfl

theorem linkLoop_snd_getElem? (neos : List NearEarthObject)
    (apprs : List CloseApproach) (j : Nat) :
    (linkLoop neos apprs).2[j]? =
      (apprs[j]?).map (fun a =>
        { a with neo := orO ((writersUpTo neos apprs neos.length j).getLast?) a.neo }) := by
  rw [linkLoop_eq_linkFold]
  exact (linkFold_char neos apprs neos.length).2.2.2 j

theorem init_neos_getElem? (neos : List NearEarthObject)
    (apprs : List CloseApproach) (i : Nat) :
    (NEODatabase.init neos apprs)._neos[i]? =
      (neos[i]?).map (fun o => { o with approaches := matchedFor apprs o }) := by
  show (linkLoop neos apprs).1[i]? = _
  exact linkLoop_fst_getElem? neos apprs i

theorem init_apprs_getElem? (neos : List NearEarthObject)
    (apprs : List CloseApproach) (j : Nat) :
    (NEODatabase.init neos apprs)._approaches[j]? =
      (apprs[j]?).map (fun a =>
        { a with neo := orO ((writersUpTo neos apprs neos.length j).getLast?) a.neo }) := by
  show (linkLoop neos apprs).2[j]? = _
  exact linkLoop_snd_getElem? neos apprs j

theorem init_neos_length (neos : List NearEarthObject)
    (apprs : List CloseApproach) :
    (NEODatabase.init neos apprs)._neos.length = neos.length := by
  show (linkLoop neos apprs).1.length = _
  rw [linkLoop_eq_linkFold]
  exact (linkFold_char neos apprs neos.length).1

theorem init_apprs_length (neos : List NearEarthObject)
    (apprs : List CloseApproach) :
    (NEODatabase.init neos apprs)._approaches.length = apprs.length := by
  show (linkLoop neos apprs).2.length = _
  rw [linkLoop_eq_linkFold]
  exact (linkFold_char neos apprs neos.length).2.1

theorem get_neo_by_designation_char (neos : List NearEarthObject)
    (apprs : List CloseApproach) (key : String) :
    (NEODatabase.init neos apprs).get_neo_by_designation key =
      ((List.range neos.length).filter
        (desKeyB neos (strLower key))).getLast? := by
  show dictGet (buildIndexes (linkLoop neos apprs).1).1 (strLower key) = _
  rw [buildIndexes_eq_indexFold,
    (indexFold_char (linkLoop neos apprs).1
      (linkLoop neos apprs).1.length).1 (strLower key)]
  have hlen : (linkLoop neos apprs).1.length = neos.length := by
    rw [linkLoop_eq_linkFold]
    exact (linkFold_char neos apprs neos.length).1
  rw [hlen]
  congr 1
  refine List.filter_congr (fun i _ => ?_)
  unfold desKeyB
  rw [linkLoop_fst_getElem? neos apprs i]
  cases neos[i]? <;> rfl

theorem get_neo_by_name_char (neos : List NearEarthObject)
    (apprs : List CloseApproach) (key : String) :
    (NEODatabase.init neos apprs).get_neo_by_name key =
      ((List.range neos.length).filter
        (nameKeyB neos (strLower key))).getLast? := by
  show dictGet (buildIndexes (linkLoop neos apprs).1).2 (strLower key) = _
  rw [buildIndexes_eq_indexFold,
    (indexFold_char (linkLoop neos apprs).1
      (linkLoop neos apprs).1.length).2 (strLower key)]
  have hlen : (linkLoop neos apprs).1.length = neos.length := by
    rw [linkLoop_eq_linkFold]
    exact (linkFold_char neos apprs neos.length).1
  rw [hlen]
  congr 1
  refine List.filter_congr (fun i _ => ?_)
  unfold nameKeyB
  rw [linkLoop_fst_getElem? neos apprs i]
  cases neos[i]? <;> rfl

theorem strLower_eq_empty_iff (s : String) : strLower s = "" ↔ s = "" := by
  cases s with
  | mk data =>
    constructor
    · intro h
      have hd : data.map Char.toLower = [] := congrArg String.data h
      rw [show data = [] from List.map_eq_nil_iff.mp hd]
    · intro h
      rw [h]
      rfl

/-! ### Query and generator lemmas -/

theorem drainFrom_eq_filter {φ : Type} [DecidableEq φ]
    (evalF : φ → CloseApproach → Bool) (fs : PySeq φ)
    (l : List CloseApproach) :
    drainFrom evalF fs l =
      l.filter (fun a =>
        pyEqListSeq (fs.elems.filter (fun fil => evalF fil a)) fs) := by
  induction l with
  | nil => rfl
  | cons a rest ih =>
    rw [drainFrom, List.filter_cons]
    by_cases h : pyEqListSeq (fs.elems.filter (fun fil => evalF fil a)) fs
    · rw [if_pos h, if_pos h, ih]
    · rw [if_neg h, if_neg h, ih]

theorem mem_writersUpTo (neos : List NearEarthObject)
    (apprs : List CloseApproach) (k j i : Nat) :
    i ∈ writersUpTo neos apprs k j ↔
      i < k ∧ neoMatchB neos apprs j i = true := by
  unfold writersUpTo
  rw [List.mem_filter, List.mem_range]

/-! ### Claims -/

/-- C1 — code_bug evidence.  `query` with the default empty-tuple argument
(line 84, `filters=()`) yields nothing at all: line 103 compares the *list*
`match_fil` against the *tuple* `filters`, and in Python a list never equals
a tuple.  So instead of yielding every event of the backing collection, the
no-argument call yields none of them, on every database — and in particular
it omits both events of the nonempty sample database. -/
theorem query_default_yields_nothing :
    (∀ db : NEODatabase, db.queryDefault = []) ∧
    sampleDB._approaches ≠ [] ∧ sampleDB.queryDefault = [] := by
  have hall : ∀ db : NEODatabase, db.queryDefault = [] := by
    intro db
    unfold NEODatabase.queryDefault NEODatabase.query
    rw [List.filter_eq_nil_iff]
    intro a _
    simp [pyEqListSeq, emptyFilters]
  exact ⟨hall, by decide, hall sampleDB⟩

/-- C2 — code_bug evidence.  The claim states that an event is yielded iff
every predicate of the supplied collection returns true on it.  With a tuple
of predicates each of which returns true on every event, `query` still
yields nothing (line 103: the list `match_fil` never equals the tuple
`filters`), although the backing collection is nonempty. -/
theorem query_tuple_breaks_and_semantics :
    sampleDB.query (fun (_ : Unit) (_ : CloseApproach) => true)
      (PySeq.tuple [()]) = [] ∧
    (∀ f ∈ (PySeq.tuple [()] : PySeq Unit).elems,
      ∀ a ∈ sampleDB._approaches,
        (fun (_ : Unit) (_ : CloseApproach) => true) f a = true) ∧
    sampleDB._approaches ≠ [] := by
  refine ⟨?_, by decide, by decide⟩
  unfold NEODatabase.query
  rw [List.filter_eq_nil_iff]
  intro a _
  simp [pyEqListSeq]

/-- C3 — counterexample.  Calling `get_neo_by_name` with the null value does
not return the not-found sentinel: line 82 evaluates `None.lower()`, which
raises `AttributeError`. -/
theorem get_neo_by_name_null_raises :
    sampleDB.get_neo_by_name_dyn none = Except.error PyError.attributeError ∧
    ¬ sampleDB.get_neo_by_name_dyn none = Except.ok none :=
  ⟨rfl, fun h => Except.noConfusion h⟩

/-- C3 — amended.  On every constructed database, `get_neo_by_name ""`
returns the not-found sentinel (empty names are never indexed, and the
lowercase key of a truthy name is never empty); a miss on either lookup
operation returns the sentinel: a key no object's designation
case-insensitively equals makes `get_neo_by_designation` return the
sentinel, and a key no object's truthy name case-insensitively equals makes
`get_neo_by_name` return the sentinel; string-key calls of both operations
return normally (never raise); but the null-value call of `get_neo_by_name`
raises `AttributeError` instead of returning the sentinel. -/
theorem lookup_misses_return_sentinel (neos : List NearEarthObject)
    (apprs : List CloseApproach) :
    (NEODatabase.init neos apprs).get_neo_by_name "" = none ∧
    (∀ s, (∀ o ∈ neos, strLower o.designation ≠ strLower s) →
      (NEODatabase.init neos apprs).get_neo_by_designation s = none) ∧
    (∀ s, (∀ o ∈ neos, truthyNameKey o ≠ some (strLower s)) →
      (NEODatabase.init neos apprs).get_neo_by_name s = none) ∧
    (∀ s, (NEODatabase.init neos apprs).get_neo_by_designation_dyn (some s) =
      Except.ok ((NEODatabase.init neos apprs).get_neo_by_designation s)) ∧
    (∀ s, (NEODatabase.init neos apprs).get_neo_by_name_dyn (some s) =
      Except.ok ((NEODatabase.init neos apprs).get_neo_by_name s)) ∧
    (NEODatabase.init neos apprs).get_neo_by_name_dyn none =
      Except.error PyError.attributeError := by
  refine ⟨?_, ?_, ?_, fun s => rfl, fun s => rfl, rfl⟩
  · rw [get_neo_by_name_char, show strLower "" = "" from rfl,
      filter_range_eq_nil (nameKeyB neos "") neos.length ?_]
    · rfl
    · intro x _
      cases hox : neos[x]? with
      | none => simp [nameKeyB, hox]
      | some o =>
        cases hnm : o.name with
        | none => simp [nameKeyB, hox, hnm]
        | some nm =>
          by_cases hemp : nm = ""
          · simp [nameKeyB, hox, hnm, hemp]
          · have hne : strLower nm ≠ "" :=
              fun hc => hemp ((strLower_eq_empty_iff nm).mp hc)
            simp [nameKeyB, hox, hnm, hemp, hne]
  · intro s hmiss
    rw [get_neo_by_designation_char,
      filter_range_eq_nil (desKeyB neos (strLower s)) neos.length ?_]
    · rfl
    · intro x _
      cases hox : neos[x]? with
      | none => simp [desKeyB, hox]
      | some o =>
        simp only [desKeyB, hox]
        simpa using hmiss o (List.getElem?_mem hox)
  · intro s hmiss
    rw [get_neo_by_name_char,
      filter_range_eq_nil (nameKeyB neos (strLower s)) neos.length ?_]
    · rfl
    · intro x _
      cases hox : neos[x]? with
      | none => simp [nameKeyB, hox]
      | some o =>
        cases hnm : o.name with
        | none => simp [nameKeyB, hox, hnm]
        | some nm =>
          by_cases hemp : nm = ""
          · simp [nameKeyB, hox, hnm, hemp]
          · have hk : truthyNameKey o = some (strLower nm) := by
              unfold truthyNameKey
              rw [hnm]
              simp [hemp]
            have hne2 : strLower nm ≠ strLower s := by
              intro hc
              exact hmiss o (List.getElem?_mem hox) (by rw [hk, hc])
            simp [nameKeyB, hox, hnm, hemp, hne2]

/-- Witness for C3 ([lookup_misses_return_sentinel]) at the sample database:
`0000` misses the designation index and `Ceres` misses the name index, both
returning the sentinel; both string-key dynamic calls return normally; the
null-value name call raises. -/
theorem lookup_misses_return_sentinel_witness :
    (∀ o ∈ [sampleNeo], strLower o.designation ≠ strLower "0000") ∧
    (∀ o ∈ [sampleNeo], truthyNameKey o ≠ some (strLower "Ceres")) ∧
    ((NEODatabase.init [sampleNeo] [sampleHit, sampleOrphan]).get_neo_by_name
      "" = none ∧
    (NEODatabase.init [sampleNeo]
      [sampleHit, sampleOrphan]).get_neo_by_designation "0000" = none ∧
    (NEODatabase.init [sampleNeo] [sampleHit, sampleOrphan]).get_neo_by_name
      "Ceres" = none ∧
    (NEODatabase.init [sampleNeo]
      [sampleHit, sampleOrphan]).get_neo_by_designation_dyn (some "0000") =
      Except.ok ((NEODatabase.init [sampleNeo]
        [sampleHit, sampleOrphan]).get_neo_by_designation "0000") ∧
    (NEODatabase.init [sampleNeo]
      [sampleHit, sampleOrphan]).get_neo_by_name_dyn (some "Ceres") =
      Except.ok ((NEODatabase.init [sampleNeo]
        [sampleHit, sampleOrphan]).get_neo_by_name "Ceres") ∧
    (NEODatabase.init [sampleNeo] [sampleHit, sampleOrphan]).get_neo_by_name_dyn
      none = Except.error PyError.attributeError) := by
  have H := lookup_misses_return_sentinel [sampleNeo]
    [sampleHit, sampleOrphan]
  exact ⟨by decide, by decide,
    H.1, H.2.1 "0000" (by decide), H.2.2.1 "Ceres" (by decide),
    H.2.2.2.1 "0000", H.2.2.2.2.1 "Ceres", H.2.2.2.2.2⟩

/-- C6 — code_bug evidence.  The orphan event of the sample database (its key
`999` matches no object) keeps its null `neo` reference and appears in no
object's `approaches` list — those parts of the claim hold — but it is *not*
yielded by the no-argument `query()`: the default-argument call yields
nothing at all (the list/tuple comparison of line 103 never succeeds). -/
theorem orphan_kept_unlinked_but_not_yielded :
    sampleDB._approaches[1]? = some sampleOrphan ∧
    sampleOrphan.neo = none ∧
    (∀ o ∈ sampleDB._neos, 1 ∉ o.approaches) ∧
    sampleDB.queryDefault = [] ∧
    sampleOrphan ∉ sampleDB.queryDefault := by decide

/-- C4: after construction, the object at index `i` stores as its
`approaches` exactly the indices of the events whose lowercased key
(`_designation`) equals its lowercased designation, in the events' original
input order (`matchedFor` is an order-preserving filter of the event
indices); membership in that list is equivalent to a matching key. -/
theorem linking_completeness (neos : List NearEarthObject)
    (apprs : List CloseApproach) (i : Nat) (o : NearEarthObject)
    (hi : neos[i]? = some o) :
    (NEODatabase.init neos apprs)._neos[i]? =
      some { o with approaches := matchedFor apprs o } ∧
    (∀ j : Nat, j ∈ matchedFor apprs o ↔
      ∃ a, apprs[j]? = some a ∧
        strLower a._designation = strLower o.designation) := by
  refine ⟨by rw [init_neos_getElem?, hi]; rfl, fun j => ?_⟩
  rw [mem_matchedFor]
  cases hj : apprs[j]? with
  | none => simp [matchKeyB, hj]
  | some a => simp [matchKeyB, hj]

/-- Witness for C4 ([linking_completeness]) at the sample database. -/
theorem linking_completeness_witness :
    ([sampleNeo][0]? = some sampleNeo) ∧
    ((NEODatabase.init [sampleNeo] [sampleHit, sampleOrphan])._neos[0]? =
      some { sampleNeo with
        approaches := matchedFor [sampleHit, sampleOrphan] sampleNeo } ∧
    (∀ j : Nat, j ∈ matchedFor [sampleHit, sampleOrphan] sampleNeo ↔
      ∃ a, [sampleHit, sampleOrphan][j]? = some a ∧
        strLower a._designation = strLower sampleNeo.designation)) :=
  ⟨by decide,
    linking_completeness [sampleNeo] [sampleHit, sampleOrphan] 0 sampleNeo
      (by decide)⟩

/-- C5: assuming the constructor's documented precondition (every input event
has a null `neo`) and case-insensitively distinct designations, every event
whose `neo` reference is non-null after construction references the object
whose lowercased designation equals the event's lowercased key, and the
event's index belongs to that object's `approaches` list. -/
theorem linking_bidirectional (neos : List NearEarthObject)
    (apprs : List CloseApproach)
    (hpre : ∀ a ∈ apprs, a.neo = none)
    (huniq : neos.Pairwise
      (fun o1 o2 => strLower o1.designation ≠ strLower o2.designation))
    (j i : Nat) (a : CloseApproach)
    (hj : (NEODatabase.init neos apprs)._approaches[j]? = some a)
    (hneo : a.neo = some i) :
    ∃ o, neos[i]? = some o ∧
      strLower a._designation = strLower o.designation ∧
      ∃ q, (NEODatabase.init neos apprs)._neos[i]? = some q ∧
        j ∈ q.approaches := by
  rw [init_apprs_getElem?] at hj
  cases ha : apprs[j]? with
  | none => rw [ha] at hj; exact Option.noConfusion hj
  | some a0 =>
    rw [ha] at hj
    have ha0 : a = { a0 with
        neo := orO ((writersUpTo neos apprs neos.length j).getLast?) a0.neo } :=
      (Option.some.inj hj).symm
    have hn0 : a0.neo = none := hpre a0 (List.getElem?_mem ha)
    have hneo2 : orO ((writersUpTo neos apprs neos.length j).getLast?)
        a0.neo = some i := by
      rw [ha0] at hneo
      exact hneo
    rw [hn0] at hneo2
    have hW : (writersUpTo neos apprs neos.length j).getLast? = some i := by
      cases hW0 : (writersUpTo neos apprs neos.length j).getLast? with
      | none => rw [hW0] at hneo2; exact Option.noConfusion hneo2
      | some x => rw [hW0] at hneo2; exact hneo2
    have hiw := (mem_writersUpTo neos apprs neos.length j i).mp
      (List.mem_of_mem_getLast? hW)
    obtain ⟨hin, hm⟩ := hiw
    cases hio : neos[i]? with
    | none =>
      unfold neoMatchB at hm
      rw [hio] at hm
      simp at hm
    | some o =>
      have hkey : matchKeyB apprs o j = true := by
        unfold neoMatchB at hm
        rw [hio] at hm
        exact hm
      have hkeq : strLower a0._designation = strLower o.designation := by
        unfold matchKeyB at hkey
        rw [ha] at hkey
        simpa using hkey
      refine ⟨o, rfl, by rw [ha0]; exact hkeq,
        { o with approaches := matchedFor apprs o }, ?_, ?_⟩
      · rw [init_neos_getElem?, hio]
        rfl
      · exact (mem_matchedFor apprs o j).mpr hkey

/-- Witness for C5 ([linking_bidirectional]) at the sample database. -/
theorem linking_bidirectional_witness :
    (∀ a ∈ [sampleHit, sampleOrphan], a.neo = none) ∧
    ([sampleNeo].Pairwise
      (fun o1 o2 => strLower o1.designation ≠ strLower o2.designation)) ∧
    ((NEODatabase.init [sampleNeo] [sampleHit, sampleOrphan])._approaches[0]? =
      some { sampleHit with neo := some 0 }) ∧
    ({ sampleHit with neo := some 0 } : CloseApproach).neo = some 0 ∧
    (∃ o, [sampleNeo][0]? = some o ∧
      strLower ({ sampleHit with neo := some 0 } :
        CloseApproach)._designation = strLower o.designation ∧
      ∃ q, (NEODatabase.init [sampleNeo]
          [sampleHit, sampleOrphan])._neos[0]? = some q ∧
        0 ∈ q.approaches) :=
  ⟨by decide, by simp, by decide, rfl,
    linking_bidirectional [sampleNeo] [sampleHit, sampleOrphan]
      (by decide) (by simp) 0 0 { sampleHit with neo := some 0 }
      (by decide) rfl⟩

/-- C7: with case-insensitively unique designations and (truthy) names,
`get_neo_by_designation` applied to any case variant of an object's
designation returns that object, and `get_neo_by_name` applied to any case
variant of a truthy name returns that object. -/
theorem index_case_insensitive_total (neos : List NearEarthObject)
    (apprs : List CloseApproach)
    (huniqD : neos.Pairwise
      (fun o1 o2 => strLower o1.designation ≠ strLower o2.designation))
    (huniqN : neos.Pairwise (fun o1 o2 =>
      truthyNameKey o1 ≠ truthyNameKey o2 ∨ truthyNameKey o1 = none))
    (i : Nat) (o : NearEarthObject) (hi : neos[i]? = some o) :
    (∀ s, strLower s = strLower o.designation →
      (NEODatabase.init neos apprs).get_neo_by_designation s = some i) ∧
    (∀ nm, o.name = some nm → nm ≠ "" →
      ∀ s, strLower s = strLower nm →
        (NEODatabase.init neos apprs).get_neo_by_name s = some i) := by
  have hin : i < neos.length := getElem?_some_lt neos i o hi
  obtain ⟨hin2, hieq⟩ := List.getElem?_eq_some_iff.mp hi
  constructor
  · intro s hs
    rw [get_neo_by_designation_char]
    apply getLast?_filter_range (desKeyB neos (strLower s)) neos.length i hin
    · unfold desKeyB
      rw [hi]
      show (strLower o.designation == strLower s) = true
      rw [hs]
      simp
    · intro x hx
      by_contra hgt
      have hlt : i < x := by omega
      unfold desKeyB at hx
      cases hox : neos[x]? with
      | none => rw [hox] at hx; simp at hx
      | some ox =>
        rw [hox] at hx
        have hxe : strLower ox.designation = strLower s := by simpa using hx
        obtain ⟨hxlt, hxeq⟩ := List.getElem?_eq_some_iff.mp hox
        have hR := List.pairwise_iff_getElem.mp huniqD i x hin2 hxlt hlt
        rw [hieq, hxeq] at hR
        exact hR (by rw [hs] at hxe; exact hxe.symm)
  · intro nm hnm hne s hs
    rw [get_neo_by_name_char]
    apply getLast?_filter_range (nameKeyB neos (strLower s)) neos.length i hin
    · unfold nameKeyB
      rw [hi]
      show (match o.name with
        | some nm => !(nm == "") && (strLower nm == strLower s)
        | none => false) = true
      rw [hnm]
      simp [hne, hs]
    · intro x hx
      by_contra hgt
      have hlt : i < x := by omega
      unfold nameKeyB at hx
      cases hox : neos[x]? with
      | none => rw [hox] at hx; simp at hx
      | some ox =>
        rw [hox] at hx
        have hx2 : (match ox.name with
            | some nmx => !(nmx == "") && (strLower nmx == strLower s)
            | none => false) = true := hx
        cases hnx : ox.name with
        | none => rw [hnx] at hx2; simp at hx2
        | some nmx =>
          rw [hnx] at hx2
          have hx3 : ¬ nmx = "" ∧ strLower nmx = strLower s := by
            simpa using hx2
          have hnex := hx3.1
          have hxe := hx3.2
          obtain ⟨hxlt, hxeq⟩ := List.getElem?_eq_some_iff.mp hox
          have hR := List.pairwise_iff_getElem.mp huniqN i x hin2 hxlt hlt
          rw [hieq, hxeq] at hR
          have hkO : truthyNameKey o = some (strLower nm) := by
            unfold truthyNameKey
            rw [hnm]
            simp [hne]
          have hkX : truthyNameKey ox = some (strLower nmx) := by
            unfold truthyNameKey
            rw [hnx]
            simp [hnex]
          rcases hR with hR | hR
          · apply hR
            rw [hkO, hkX, hxe, hs]
          · rw [hkO] at hR
            exact Option.noConfusion hR

/-- Witness for C7 ([index_case_insensitive_total]): uppercased lookups of
`433` and `Eros` both return the sample object. -/
theorem index_case_insensitive_total_witness :
    ([sampleNeo].Pairwise
      (fun o1 o2 => strLower o1.designation ≠ strLower o2.designation)) ∧
    ([sampleNeo].Pairwise (fun o1 o2 =>
      truthyNameKey o1 ≠ truthyNameKey o2 ∨ truthyNameKey o1 = none)) ∧
    ([sampleNeo][0]? = some sampleNeo) ∧
    (NEODatabase.init [sampleNeo]
      [sampleHit, sampleOrphan]).get_neo_by_designation "433" = some 0 ∧
    (NEODatabase.init [sampleNeo]
      [sampleHit, sampleOrphan]).get_neo_by_name "EROS" = some 0 := by
  have H := index_case_insensitive_total [sampleNeo] [sampleHit, sampleOrphan]
    (by simp) (by simp) 0 sampleNeo (by decide)
  exact ⟨by simp, by simp, by decide,
    H.1 "433" (by decide),
    H.2 "Eros" (by decide) (by decide) "EROS" (by decide)⟩

/-- C8: `query` is deterministic and restartable — any two generators
obtained by calling `query` on the same database with the same (pure)
predicate collection drain to the same list of events, namely the filter of
the backing collection, evaluated afresh on each call. -/
theorem query_restartable {φ : Type} [DecidableEq φ]
    (evalF : φ → CloseApproach → Bool) (db : NEODatabase)
    (filters : PySeq φ) (g1 g2 : QueryGen φ)
    (h1 : g1 = db.queryGen filters) (h2 : g2 = db.queryGen filters) :
    g1.drain evalF = g2.drain evalF ∧
    g1.drain evalF = db.query evalF filters := by
  subst h1
  subst h2
  refine ⟨rfl, ?_⟩
  unfold QueryGen.drain NEODatabase.queryGen NEODatabase.query
  exact drainFrom_eq_filter evalF filters db._approaches

/-- Witness for C8 ([query_restartable]) at the sample database with the
empty list of predicates. -/
theorem query_restartable_witness :
    (sampleDB.queryGen (PySeq.list ([] : List Unit)) =
      sampleDB.queryGen (PySeq.list ([] : List Unit))) ∧
    ((sampleDB.queryGen (PySeq.list ([] : List Unit))).drain
        (fun _ _ => true) =
      (sampleDB.queryGen (PySeq.list ([] : List Unit))).drain
        (fun _ _ => true) ∧
    (sampleDB.queryGen (PySeq.list ([] : List Unit))).drain
        (fun _ _ => true) =
      sampleDB.query (fun _ _ => true) (PySeq.list ([] : List Unit))) :=
  ⟨rfl, query_restartable (fun _ _ => true) sampleDB
    (PySeq.list ([] : List Unit))
    (sampleDB.queryGen (PySeq.list ([] : List Unit)))
    (sampleDB.queryGen (PySeq.list ([] : List Unit)))
    rfl rfl⟩

/-- C9: the constructor neither adds, removes nor reorders elements of either
input collection, and the only fields it writes are each object's
`approaches` list and the `neo` reference of matched events: lengths are
preserved, and pointwise every other field (`designation`, `name`,
`diameter`, `hazardous`; `_designation`, `time`, `distance`, `velocity`) is
unchanged. -/
theorem constructor_frame (neos : List NearEarthObject)
    (apprs : List CloseApproach) :
    (NEODatabase.init neos apprs)._neos.length = neos.length ∧
    (NEODatabase.init neos apprs)._approaches.length = apprs.length ∧
    (∀ i : Nat, ((NEODatabase.init neos apprs)._neos[i]?).map neoPayload =
      (neos[i]?).map neoPayload) ∧
    (∀ j : Nat,
      ((NEODatabase.init neos apprs)._approaches[j]?).map apprPayload =
      (apprs[j]?).map apprPayload) := by
  refine ⟨init_neos_length neos apprs, init_apprs_length neos apprs,
    fun i => ?_, fun j => ?_⟩
  · rw [init_neos_getElem?]
    cases neos[i]? <;> rfl
  · rw [init_apprs_getElem?]
    cases apprs[j]? <;> rfl

/-- C10: when exactly two input objects share a lowercased designation, the
index and the links resolve to the later one: `get_neo_by_designation` on any
case variant of that designation returns the later object's reference, and
every event whose key matches it ends with `neo` set to the later object. -/
theorem duplicate_designation_last_wins (neos : List NearEarthObject)
    (apprs : List CloseApproach) (i1 i2 : Nat) (o1 o2 : NearEarthObject)
    (h12 : i1 < i2)
    (h1 : neos[i1]? = some o1) (h2 : neos[i2]? = some o2)
    (hdup : strLower o1.designation = strLower o2.designation)
    (honly : ∀ x : Nat, ∀ ox, neos[x]? = some ox →
      strLower ox.designation = strLower o1.designation → x = i1 ∨ x = i2) :
    (∀ s, strLower s = strLower o1.designation →
      (NEODatabase.init neos apprs).get_neo_by_designation s = some i2) ∧
    (∀ j : Nat, ∀ a, apprs[j]? = some a →
      strLower a._designation = strLower o1.designation →
      (NEODatabase.init neos apprs)._approaches[j]? =
        some { a with neo := some i2 }) := by
  have hin2 : i2 < neos.length := getElem?_some_lt neos i2 o2 h2
  constructor
  · intro s hs
    rw [get_neo_by_designation_char]
    apply getLast?_filter_range (desKeyB neos (strLower s)) neos.length i2 hin2
    · unfold desKeyB
      rw [h2]
      show (strLower o2.designation == strLower s) = true
      rw [hs, hdup]
      simp
    · intro x hx
      unfold desKeyB at hx
      cases hox : neos[x]? with
      | none => rw [hox] at hx; simp at hx
      | some ox =>
        rw [hox] at hx
        have hxe : strLower ox.designation = strLower s := by simpa using hx
        rcases honly x ox hox (by rw [hxe, hs]) with h | h <;> omega
  · intro j a ha hkey
    have hW : (writersUpTo neos apprs neos.length j).getLast? = some i2 := by
      unfold writersUpTo
      apply getLast?_filter_range (neoMatchB neos apprs j) neos.length i2 hin2
      · unfold neoMatchB
        rw [h2]
        show matchKeyB apprs o2 j = true
        unfold matchKeyB
        rw [ha]
        show (strLower a._designation == strLower o2.designation) = true
        rw [hkey, hdup]
        simp
      · intro x hx
        unfold neoMatchB at hx
        cases hox : neos[x]? with
        | none => rw [hox] at hx; simp at hx
        | some ox =>
          rw [hox] at hx
          have hx2 : matchKeyB apprs ox j = true := hx
          have hko : strLower a._designation = strLower ox.designation := by
            unfold matchKeyB at hx2
            rw [ha] at hx2
            simpa using hx2
          rcases honly x ox hox (by rw [← hko, hkey]) with h | h <;> omega
    rw [init_apprs_getElem?, ha, hW]
    rfl

/-- Witness for C10 ([duplicate_designation_last_wins]): two objects with
designations `2010 XY` and `2010 xy`; lookup and the matching event both
resolve to the later one (index 1). -/
theorem duplicate_designation_last_wins_witness :
    (0 : Nat) < 1 ∧
    ([dupFirst, dupSecond][0]? = some dupFirst) ∧
    ([dupFirst, dupSecond][1]? = some dupSecond) ∧
    strLower dupFirst.designation = strLower dupSecond.designation ∧
    (∀ x : Nat, ∀ ox, [dupFirst, dupSecond][x]? = some ox →
      strLower ox.designation = strLower dupFirst.designation →
      x = 0 ∨ x = 1) ∧
    (NEODatabase.init [dupFirst, dupSecond]
      [dupHit]).get_neo_by_designation "2010 XY" = some 1 ∧
    (NEODatabase.init [dupFirst, dupSecond] [dupHit])._approaches[0]? =
      some { dupHit with neo := some 1 } := by
  have honly : ∀ x : Nat, ∀ ox, [dupFirst, dupSecond][x]? = some ox →
      strLower ox.designation = strLower dupFirst.designation →
      x = 0 ∨ x = 1 := by
    intro x ox hx _
    match x with
    | 0 => exact Or.inl rfl
    | 1 => exact Or.inr rfl
    | x + 2 => exact absurd hx (by simp)
  have H := duplicate_designation_last_wins [dupFirst, dupSecond] [dupHit]
    0 1 dupFirst dupSecond (by decide) (by decide) (by decide) (by decide)
    honly
  exact ⟨by decide, by decide, by decide, by decide, honly,
    H.1 "2010 XY" (by decide), H.2 0 dupHit (by decide) (by decide)⟩
